import Mathlib

/-!
Formal model of the knowledge-base ingestion pipeline (src/ingest.py).

The pipeline crawls a site, extracts deduplicated bounded-size chunks from
the crawled pages, and persists them to a vector store in fixed-size
batches.  External collaborators (the crawler, the langchain text
splitter, the chroma client) are modelled at their interface boundary:
the splitter is a function parameter, the crawler output is the input
list of page results, and the store is a trace of store calls.  Machine
integers do not occur (Python integers are unbounded); MD5 arithmetic is
on Nat with explicit reduction modulo 2 to the 32.
-/

/-! ### UTF-8 encoding (Python text.encode of a str) -/

/-- UTF-8 encoding of a single Unicode code point, as a list of byte
values.  Mirrors the standard UTF-8 layout used by Python's str.encode. -/
def utf8EncodeChar (c : Char) : List Nat :=
  let n := c.toNat
  if n < 128 then [n]
  else if n < 2048 then [192 + n / 64, 128 + n % 64]
  else if n < 65536 then [224 + n / 4096, 128 + (n / 64) % 64, 128 + n % 64]
  else [240 + n / 262144, 128 + (n / 4096) % 64, 128 + (n / 64) % 64, 128 + n % 64]

/-- The UTF-8 bytes of a string: Python text.encode("utf-8"). -/
def utf8Bytes (s : String) : List Nat :=
  s.data.flatMap utf8EncodeChar

/-! ### MD5 (hashlib.md5(...).hexdigest())

Reduction of every 32-bit quantity is explicit via modulo 4294967296. -/

def u32 (n : Nat) : Nat := n % 4294967296

/-- 32-bit left rotation (the operand is assumed below 2^32). -/
def md5rotl (x s : Nat) : Nat := ((x <<< s) % 4294967296) ||| (x >>> (32 - s))

def md5F (b c d : Nat) : Nat := (b &&& c) ||| ((4294967295 ^^^ b) &&& d)

def md5G (b c d : Nat) : Nat := (d &&& b) ||| ((4294967295 ^^^ d) &&& c)

def md5H (b c d : Nat) : Nat := b ^^^ c ^^^ d

def md5I (b c d : Nat) : Nat := c ^^^ (b ||| (4294967295 ^^^ d))

/-- Per-round sine-derived constants of MD5 (RFC 1321 table T). -/
def md5K : List Nat :=
  [0xd76aa478, 0xe8c7b756, 0x242070db, 0xc1bdceee,
   0xf57c0faf, 0x4787c62a, 0xa8304613, 0xfd469501,
   0x698098d8, 0x8b44f7af, 0xffff5bb1, 0x895cd7be,
   0x6b901122, 0xfd987193, 0xa679438e, 0x49b40821,
   0xf61e2562, 0xc040b340, 0x265e5a51, 0xe9b6c7aa,
   0xd62f105d, 0x02441453, 0xd8a1e681, 0xe7d3fbc8,
   0x21e1cde6, 0xc33707d6, 0xf4d50d87, 0x455a14ed,
   0xa9e3e905, 0xfcefa3f8, 0x676f02d9, 0x8d2a4c8a,
   0xfffa3942, 0x8771f681, 0x6d9d6122, 0xfde5380c,
   0xa4beea44, 0x4bdecfa9, 0xf6bb4b60, 0xbebfbc70,
   0x289b7ec6, 0xeaa127fa, 0xd4ef3085, 0x04881d05,
   0xd9d4d039, 0xe6db99e5, 0x1fa27cf8, 0xc4ac5665,
   0xf4292244, 0x432aff97, 0xab9423a7, 0xfc93a039,
   0x655b59c3, 0x8f0ccc92, 0xffeff47d, 0x85845dd1,
   0x6fa87e4f, 0xfe2ce6e0, 0xa3014314, 0x4e0811a1,
   0xf7537e82, 0xbd3af235, 0x2ad7d2bb, 0xeb86d391]

/-- Per-round left-rotation amounts of MD5. -/
def md5S : List Nat :=
  [7, 12, 17, 22, 7, 12, 17, 22, 7, 12, 17, 22, 7, 12, 17, 22,
   5, 9, 14, 20, 5, 9, 14, 20, 5, 9, 14, 20, 5, 9, 14, 20,
   4, 11, 16, 23, 4, 11, 16, 23, 4, 11, 16, 23, 4, 11, 16, 23,
   6, 10, 15, 21, 6, 10, 15, 21, 6, 10, 15, 21, 6, 10, 15, 21]

/-- Group the bytes of one 64-byte block into 16 little-endian 32-bit words. -/
def md5LEWords : List Nat → List Nat
  | b0 :: b1 :: b2 :: b3 :: rest =>
      (b0 + 256 * (b1 + 256 * (b2 + 256 * b3))) :: md5LEWords rest
  | _ => []

/-- One MD5 round applied to the running state (a, b, c, d). -/
def md5Step (M : List Nat) (st : Nat × Nat × Nat × Nat) (i : Nat) :
    Nat × Nat × Nat × Nat :=
  let (a, b, c, d) := st
  let fg : Nat × Nat :=
    if i < 16 then (md5F b c d, i)
    else if i < 32 then (md5G b c d, (5 * i + 1) % 16)
    else if i < 48 then (md5H b c d, (3 * i + 5) % 16)
    else (md5I b c d, (7 * i) % 16)
  let f := u32 (fg.1 + a + md5K.getD i 0 + M.getD fg.2 0)
  (d, u32 (b + md5rotl f (md5S.getD i 0)), b, c)

/-- Process one padded 64-byte block. -/
def md5Block (st : Nat × Nat × Nat × Nat) (block : List Nat) :
    Nat × Nat × Nat × Nat :=
  let M := md5LEWords block
  let r := (List.range 64).foldl (md5Step M) st
  (u32 (r.1 + st.1), u32 (r.2.1 + st.2.1), u32 (r.2.2.1 + st.2.2.1),
   u32 (r.2.2.2 + st.2.2.2))

/-- Fuel-driven worker for chunksOf; the fuel only forces termination and
is irrelevant as long as it is at least the list length (n positive). -/
def chunksOfGo (n : Nat) : Nat → List α → List (List α)
  | 0, _ => []
  | _ + 1, [] => []
  | fuel + 1, x :: xs =>
      (x :: xs).take n :: chunksOfGo n fuel ((x :: xs).drop n)

/-- Split a list into consecutive pieces of n elements (the last piece may
be shorter); for n = 0 the result is empty. -/
def chunksOf (n : Nat) (l : List α) : List (List α) :=
  chunksOfGo n l.length l

/-- MD5 padding: a 1-bit, zeros to 56 mod 64, then the original bit length
as 8 little-endian bytes. -/
def md5Pad (bytes : List Nat) : List Nat :=
  let len := bytes.length
  let zeros := (119 - len % 64) % 64
  let bitLen := (8 * len) % (2 ^ 64)
  bytes ++ [128] ++ List.replicate zeros 0 ++
    (List.range 8).map (fun i => (bitLen / 256 ^ i) % 256)

/-- The 16 MD5 digest bytes of a byte string. -/
def md5Digest (bytes : List Nat) : List Nat :=
  let blocks := chunksOf 64 (md5Pad bytes)
  let r := blocks.foldl md5Block (0x67452301, 0xefcdab89, 0x98badcfe, 0x10325476)
  [r.1, r.2.1, r.2.2.1, r.2.2.2].flatMap
    (fun w => (List.range 4).map (fun i => (w / 256 ^ i) % 256))

/-- Lowercase hexadecimal digit. -/
def hexDigit (n : Nat) : Char :=
  Char.ofNat (if n < 10 then 48 + n else 87 + n)

/-- Two-digit lowercase hexadecimal rendering of one byte. -/
def byteToHex (b : Nat) : String :=
  String.mk [hexDigit (b / 16), hexDigit (b % 16)]

/-- Lowercase hex digest of a byte string, as hashlib's hexdigest. -/
def md5Hex (bytes : List Nat) : String :=
  String.join ((md5Digest bytes).map byteToHex)

/-! ### Configuration constants (src/ingest.py lines 20-26) -/

def COLLECTION_NAME : String := "netweb_knowledge_base"

def MAX_BYTES : Nat := 15800

def UPSERT_BATCH_SIZE : Nat := 25

/-! ### Utility functions (src/ingest.py lines 53-75) -/

/-- compute_hash: hashlib.md5(text.encode("utf-8")).hexdigest(). -/
def compute_hash (text : String) : String :=
  md5Hex (utf8Bytes text)

/-- split_if_needed: a page at or below MAX_BYTES (UTF-8 byte length)
yields the single chunk [text]; otherwise the external recursive
character splitter (TEXT_SPLITTER.split_text, a langchain collaborator
modelled as the parameter splitText) is applied. -/
def split_if_needed (splitText : String → List String) (text : String) :
    List String :=
  if (utf8Bytes text).length ≤ MAX_BYTES then [text]
  else splitText text

/-- The process environment, as os.getenv: none models an unset variable. -/
def Env : Type := String → Option String

/-- Python truthiness of an os.getenv result: None and the empty string
are falsy, every other string is truthy. -/
def envTruthy : Option String → Bool
  | none => false
  | some s => !(s == "")

def requiredVars : List String :=
  ["CHROMA_API_KEY", "CHROMA_TENANT", "CHROMA_DATABASE"]

/-- The required variables rejected by the falsy check, in order. -/
def missingVars (env : Env) : List String :=
  requiredVars.filter (fun v => !envTruthy (env v))

/-- validate_chroma_env: raises RuntimeError listing every missing
variable, or returns unit. -/
def validate_chroma_env (env : Env) : Except String Unit :=
  match missingVars env with
  | [] => Except.ok ()
  | missing =>
      Except.error ("Missing environment variables: " ++
        String.intercalate ", " missing)

/-! ### Data model -/

/-- One crawl4ai page result, at the fields the pipeline reads.  The
title field models result.metadata.get("title", ...): none when the
metadata dictionary has no title key. -/
structure CrawlResult where
  url : String
  success : Bool
  markdown : String
  title : Option String
deriving DecidableEq

/-- The metadata record written per chunk (a dict with keys source and
title in the code). -/
structure ChunkMeta where
  source : String
  title : String
deriving DecidableEq

/-- Accumulator of extract_documents: the three output lists plus the
run-local seen_ids set (a set of strings; modelled as the list of
elements, queried only through membership). -/
structure ExtractState where
  documents : List String
  metadatas : List ChunkMeta
  ids : List String
  seen_ids : List String
deriving DecidableEq

/-! ### extract_documents (src/ingest.py lines 109-157) -/

/-- result.metadata.get("title", "Webpage"). -/
def pageTitle (r : CrawlResult) : String :=
  r.title.getD "Webpage"

/-- The header-decorated document text persisted for a chunk. -/
def docTextOf (title url chunk : String) : String :=
  "Source: " ++ title ++ "\n" ++ "URL: " ++ url ++ "\n\n" ++ chunk

/-- chunk_id = url + "#" + md5 hex digest of the chunk text. -/
def chunkIdOf (url chunk : String) : String :=
  url ++ "#" ++ compute_hash chunk

/-- Body of the inner chunk loop of extract_documents: drop a chunk whose
id is already in seen_ids, otherwise append to the three lists and
record the id as seen. -/
def processChunk (url title : String) (st : ExtractState) (chunk : String) :
    ExtractState :=
  let chunk_id := chunkIdOf url chunk
  if chunk_id ∈ st.seen_ids then st
  else
    { documents := st.documents ++ [docTextOf title url chunk]
      metadatas := st.metadatas ++ [⟨url, title⟩]
      ids := st.ids ++ [chunk_id]
      seen_ids := chunk_id :: st.seen_ids }

/-- Body of the page loop of extract_documents: a failed page or a page
with empty markdown is skipped, any other page is split and every chunk
processed in order. -/
def processPage (splitText : String → List String) (st : ExtractState)
    (r : CrawlResult) : ExtractState :=
  if !r.success || r.markdown == "" then st
  else (split_if_needed splitText r.markdown).foldl
    (processChunk r.url (pageTitle r)) st

/-- extract_documents: fold the page loop over the crawl results starting
from empty output lists and an empty seen_ids set, and return the
(documents, metadatas, ids) triple. -/
def extract_documents (splitText : String → List String)
    (results : List CrawlResult) :
    List String × List ChunkMeta × List String :=
  let st := results.foldl (processPage splitText) ⟨[], [], [], []⟩
  (st.documents, st.metadatas, st.ids)

/-! ### upsert_to_chroma (src/ingest.py lines 164-191) -/

/-- One observable call on the chroma client or collection. -/
inductive StoreCall where
  | connect (apiKey tenant database : Option String)
  | getOrCreateCollection (name : String)
  | upsert (documents : List String) (metadatas : List ChunkMeta)
      (ids : List String)
deriving DecidableEq

/-- Fuel-driven worker for pyRange; the fuel only forces termination and
is irrelevant as long as it is at least stop - start (step positive). -/
def pyRangeGo (stop step : Nat) : Nat → Nat → List Nat
  | 0, _ => []
  | fuel + 1, start =>
      if start < stop then start :: pyRangeGo stop step fuel (start + step)
      else []

/-- Python range(start, stop, step) for a positive step (empty when the
step is zero, a case the pipeline never exercises). -/
def pyRange (start stop step : Nat) : List Nat :=
  if step = 0 then [] else pyRangeGo stop step (stop - start) start

/-- Python l[i : i + n]. -/
def pySlice (l : List α) (i n : Nat) : List α :=
  (l.drop i).take n

/-- The batch triples submitted by the upsert loop, in order: the loop
variable ranges over range(0, len(documents), UPSERT_BATCH_SIZE) and each
iteration slices all three lists at [i : i + UPSERT_BATCH_SIZE]. -/
def upsertBatches (documents : List String) (metadatas : List ChunkMeta)
    (ids : List String) :
    List (List String × List ChunkMeta × List String) :=
  (pyRange 0 documents.length UPSERT_BATCH_SIZE).map
    (fun i => (pySlice documents i UPSERT_BATCH_SIZE,
               pySlice metadatas i UPSERT_BATCH_SIZE,
               pySlice ids i UPSERT_BATCH_SIZE))

/-- upsert_to_chroma: validate the environment first; on success the
store sees the client connection, the collection lookup and one upsert
per batch, in order.  A validation failure propagates as the error and
the store sees no call at all. -/
def upsert_to_chroma (env : Env) (documents : List String)
    (metadatas : List ChunkMeta) (ids : List String) :
    Except String (List StoreCall) :=
  match validate_chroma_env env with
  | Except.error e => Except.error e
  | Except.ok _ =>
      Except.ok
        (StoreCall.connect (env "CHROMA_API_KEY") (env "CHROMA_TENANT")
            (env "CHROMA_DATABASE") ::
         StoreCall.getOrCreateCollection COLLECTION_NAME ::
         (upsertBatches documents metadatas ids).map
           (fun b => StoreCall.upsert b.1 b.2.1 b.2.2))

/-! ### main (src/ingest.py lines 198-215) -/

/-- main, after the crawl: extract documents from the crawl results; when
no document was extracted return with no store interaction, otherwise
run the persister (whose failure is re-raised unchanged).  (The name
main is reserved in Lean, hence mainRun.) -/
def mainRun (splitText : String → List String) (env : Env)
    (results : List CrawlResult) : Except String (List StoreCall) :=
  let extracted := extract_documents splitText results
  if extracted.1.isEmpty then Except.ok []
  else upsert_to_chroma env extracted.1 extracted.2.1 extracted.2.2

/-- One externally observable I/O action of a whole run: the crawl of
the seed url (the first thing main does), or a store call. -/
inductive RunEvent where
  | crawl (url : String)
  | store (call : StoreCall)
deriving DecidableEq

/-- main including the crawl boundary: the I/O events of the run in the
order they are performed, paired with the error the run raises, if any.
main awaits crawl_site(url) before anything else, so every run starts
with the crawl event; with empty extraction it returns right after it;
otherwise the persister runs, and on its failure the events performed so
far are exactly the crawl (the error is raised before any store call).
The crawler itself is the external parameter crawl. -/
def mainTrace (splitText : String → List String) (env : Env)
    (url : String) (crawl : String → List CrawlResult) :
    List RunEvent × Option String :=
  let results := crawl url
  let extracted := extract_documents splitText results
  if extracted.1.isEmpty then ([RunEvent.crawl url], none)
  else
    match upsert_to_chroma env extracted.1 extracted.2.1 extracted.2.2 with
    | Except.ok calls => (RunEvent.crawl url :: calls.map RunEvent.store, none)
    | Except.error e => ([RunEvent.crawl url], some e)

/-! ### Characterization helpers

These definitions restate what one iteration of the extraction loops
produces, so that the loop can be related to a generate-then-deduplicate
description. -/

/-- One output row of extract_documents: the persisted document text, its
metadata record and its chunk id. -/
structure ChunkEntry where
  doc : String
  meta : ChunkMeta
  id : String
deriving DecidableEq

/-- The output row generated for a raw chunk of a page. -/
def entryOf (url title chunk : String) : ChunkEntry :=
  ⟨docTextOf title url chunk, ⟨url, title⟩, chunkIdOf url chunk⟩

/-- A page that passes the skip test of the page loop. -/
def pageGood (r : CrawlResult) : Bool :=
  r.success && !(r.markdown == "")

/-- All rows a good page generates, in within-page split order. -/
def pageEntries (splitText : String → List String) (r : CrawlResult) :
    List ChunkEntry :=
  (split_if_needed splitText r.markdown).map (entryOf r.url (pageTitle r))

/-- All rows of the run before deduplication, in discovery order (page
order, then within-page split order). -/
def rawEntries (splitText : String → List String)
    (results : List CrawlResult) : List ChunkEntry :=
  (results.filter pageGood).flatMap (pageEntries splitText)

/-- Deduplication against a seen-id set threaded left to right: drop a
row whose id was already seen, keep any other row and mark its id seen.
Returns the kept rows and the final seen set. -/
def dedupEntries (seen : List String) :
    List ChunkEntry → List ChunkEntry × List String
  | [] => ([], seen)
  | e :: es =>
      if e.id ∈ seen then dedupEntries seen es
      else (e :: (dedupEntries (e.id :: seen) es).1,
            (dedupEntries (e.id :: seen) es).2)

/-- First-occurrence filter: keep each row whose key has not occurred
earlier in the list, dropping every later row with the same key. -/
def keepFirstBy (key : ChunkEntry → String) :
    List ChunkEntry → List ChunkEntry
  | [] => []
  | e :: es => e :: keepFirstBy key (es.filter (fun x => !(key x == key e)))
termination_by l => l.length
decreasing_by
  have := List.length_filter_le (fun x => !(key x == key e)) es
  simp only [List.length_cons]
  omega

/-- The environment with one variable unset and the rest unchanged. -/
def setUnset (env : Env) (v : String) : Env :=
  fun w => if w = v then none else env w

set_option maxRecDepth 100000

/-! ### Sanity: the digest agrees with hashlib on a known vector -/

theorem compute_hash_known_vector :
    compute_hash "hi" = "49f68a5c8493ec2c0bf489821c21fc3b" := by
  decide

/-! ### Page skipping -/

theorem processPage_skip (f : String → List String) (st : ExtractState)
    (r : CrawlResult) (h : (!r.success || r.markdown == "") = true) :
    processPage f st r = st := by
  simp [processPage, h]

/-- C7: a page whose succeeded flag is false or whose text is empty
contributes no rows to any output list, and extraction does not abort
there: removing the page from the input leaves the whole extraction
output (including every later page's contribution) unchanged. -/
theorem extract_documents_skips_bad_page (f : String → List String)
    (pre post : List CrawlResult) (p : CrawlResult)
    (h : p.success = false ∨ p.markdown = "") :
    extract_documents f (pre ++ p :: post) =
      extract_documents f (pre ++ post) := by
  have hb : (!p.success || p.markdown == "") = true := by
    rcases h with h | h
    · simp [h]
    · simp [h]
  unfold extract_documents
  rw [List.foldl_append, List.foldl_append, List.foldl_cons,
    processPage_skip f _ p hb]

/-- Witness for C7: a concrete failed page between no other pages. -/
theorem extract_documents_skips_bad_page_witness :
    extract_documents (fun s => [s]) [⟨"https://a", false, "boiler", none⟩] =
      extract_documents (fun s => [s]) [] :=
  extract_documents_skips_bad_page (fun s => [s]) [] []
    ⟨"https://a", false, "boiler", none⟩ (Or.inl rfl)

/-! ### Determinism -/

/-- C8: extraction is deterministic: on byte-identical input the
(documents, metadatas, ids) triples of two runs coincide, and in
particular the ids lists are byte-identical.  The seen-id set is created
inside extract_documents, so no run-local state survives a call. -/
theorem extract_documents_deterministic (f : String → List String)
    (results1 results2 : List CrawlResult) (h : results1 = results2) :
    extract_documents f results1 = extract_documents f results2 ∧
    (extract_documents f results1).2.2 =
      (extract_documents f results2).2.2 := by
  subst h
  exact ⟨rfl, rfl⟩

/-- Witness for C8 on a concrete one-page input. -/
theorem extract_documents_deterministic_witness :
    extract_documents (fun s => [s]) [⟨"https://a", true, "text", some "T"⟩] =
      extract_documents (fun s => [s]) [⟨"https://a", true, "text", some "T"⟩] ∧
    (extract_documents (fun s => [s]) [⟨"https://a", true, "text", some "T"⟩]).2.2 =
      (extract_documents (fun s => [s]) [⟨"https://a", true, "text", some "T"⟩]).2.2 :=
  extract_documents_deterministic (fun s => [s]) _ _ rfl

/-! ### Size threshold -/

/-- C3: a text whose UTF-8 byte length is at most MAX_BYTES (15800) --
including exactly at the threshold -- yields the single chunk equal to
the full text; only a text strictly above the threshold reaches the
recursive splitter. -/
theorem split_if_needed_threshold (f : String → List String)
    (text : String) :
    ((utf8Bytes text).length ≤ MAX_BYTES → split_if_needed f text = [text]) ∧
    (MAX_BYTES < (utf8Bytes text).length → split_if_needed f text = f text) := by
  constructor
  · intro h
    simp [split_if_needed, h]
  · intro h
    rw [split_if_needed, if_neg (by omega)]

/-- Witness for C3 on a short text. -/
theorem split_if_needed_threshold_witness :
    (utf8Bytes "abc").length ≤ MAX_BYTES ∧
    split_if_needed (fun s => [s, s]) "abc" = ["abc"] :=
  ⟨by decide, (split_if_needed_threshold (fun s => [s, s]) "abc").1 (by decide)⟩

/-! ### Fail-fast configuration check

The persister validates the environment before it touches the store
(ingest.py line 169); this is a store-level property.  At pipeline level
the picture is different: main awaits the crawl before anything else and
validates credentials only inside the persister, and only when
extraction produced documents, which refutes the stronger reading that
a missing credential errors before any I/O with no network call. -/

/-- Persister-level fail-fast: with at least one required credential
missing, upsert_to_chroma fails with the single aggregated error listing
exactly the missing variables, and the store trace is empty: the error
is produced before the connection or any upsert is attempted. -/
theorem upsert_to_chroma_fail_fast (env : Env) (documents : List String)
    (metadatas : List ChunkMeta) (ids : List String)
    (h : missingVars env ≠ []) :
    upsert_to_chroma env documents metadatas ids =
      Except.error ("Missing environment variables: " ++
        String.intercalate ", " (missingVars env)) ∧
    (∀ v, v ∈ missingVars env ↔
      (v ∈ requiredVars ∧ envTruthy (env v) = false)) := by
  constructor
  · cases hm : missingVars env with
    | nil => exact absurd hm h
    | cons a as => simp [upsert_to_chroma, validate_chroma_env, hm]
  · intro v
    simp [missingVars, List.mem_filter]

/-- The persister-level lemma at a concrete input: every credential
unset. -/
theorem upsert_to_chroma_fail_fast_witness :
    missingVars (fun _ => none) ≠ [] ∧
    upsert_to_chroma (fun _ => none) ["d"] [⟨"u", "t"⟩] ["i"] =
      Except.error ("Missing environment variables: " ++
        String.intercalate ", " (missingVars (fun _ => none))) :=
  ⟨by decide,
   (upsert_to_chroma_fail_fast (fun _ => none) ["d"] [⟨"u", "t"⟩] ["i"]
     (by decide)).1⟩

/-- C4 counterexample: invoking the pipeline with every credential
missing does not fail before any I/O.  With a crawl that yields no
documents the run raises no error at all (outcome none), and with a
crawl that yields a document the aggregated error is raised only after
the crawl network call has already been performed (the crawl event is
in the trace). -/
theorem pipeline_missing_creds_not_fail_fast :
    missingVars (fun _ => none) ≠ [] ∧
    mainTrace (fun s => [s]) (fun _ => none) "https://a" (fun _ => []) =
      ([RunEvent.crawl "https://a"], none) ∧
    mainTrace (fun s => [s]) (fun _ => none) "https://a"
        (fun _ => [⟨"https://p", true, "hi", none⟩]) =
      ([RunEvent.crawl "https://a"],
       some ("Missing environment variables: " ++
         "CHROMA_API_KEY, CHROMA_TENANT, CHROMA_DATABASE")) := by
  refine ⟨by decide, by decide, ?_⟩
  decide

/-- C4 (amended): if any required store credential is missing, then
whenever the pipeline reaches the persister (extraction yielded at least
one document), the run fails with the single error enumerating exactly
the missing variables, raised before any store call: the I/O trace holds
only the crawl, which main always performs first, and no store
connection or upsert is attempted.  (A run with empty extraction returns
successfully without validating, as C6 states.) -/
theorem pipeline_fail_fast_before_store (f : String → List String)
    (env : Env) (url : String) (crawl : String → List CrawlResult)
    (hmiss : missingVars env ≠ [])
    (hne : (extract_documents f (crawl url)).1 ≠ []) :
    mainTrace f env url crawl =
      ([RunEvent.crawl url],
       some ("Missing environment variables: " ++
         String.intercalate ", " (missingVars env))) ∧
    (∀ v, v ∈ missingVars env ↔
      (v ∈ requiredVars ∧ envTruthy (env v) = false)) := by
  have hup := upsert_to_chroma_fail_fast env
    (extract_documents f (crawl url)).1
    (extract_documents f (crawl url)).2.1
    (extract_documents f (crawl url)).2.2 hmiss
  refine ⟨?_, hup.2⟩
  have hie : (extract_documents f (crawl url)).1.isEmpty = false := by
    cases hx : (extract_documents f (crawl url)).1 with
    | nil => exact absurd hx hne
    | cons a as => rfl
  simp only [mainTrace, hie, Bool.false_eq_true, if_false, hup.1]

/-- Witness for the amended C4: all credentials missing and a crawl
yielding one page. -/
theorem pipeline_fail_fast_before_store_witness :
    missingVars (fun _ => none) ≠ [] ∧
    (extract_documents (fun s => [s])
      ((fun _ => [⟨"https://p", true, "hi", none⟩])
        "https://a" : List CrawlResult)).1 ≠ [] ∧
    mainTrace (fun s => [s]) (fun _ => none) "https://a"
        (fun _ => [⟨"https://p", true, "hi", none⟩]) =
      ([RunEvent.crawl "https://a"],
       some ("Missing environment variables: " ++
         String.intercalate ", " (missingVars (fun _ => none)))) :=
  ⟨by decide, by decide,
   (pipeline_fail_fast_before_store (fun s => [s]) (fun _ => none)
     "https://a" (fun _ => [⟨"https://p", true, "hi", none⟩])
     (by decide) (by decide)).1⟩

/-- C10: a required variable set to the empty string is treated exactly
as an unset one: it is counted missing, the missing list is unchanged
when the variable is unset instead, and validation raises the aggregated
error message listing the missing variables (the empty-valued one among
them). -/
theorem validate_env_empty_as_unset (env : Env) (v : String)
    (hv : v ∈ requiredVars) (he : env v = some "") :
    v ∈ missingVars env ∧
    missingVars env = missingVars (setUnset env v) ∧
    validate_chroma_env env =
      Except.error ("Missing environment variables: " ++
        String.intercalate ", " (missingVars env)) := by
  have htr : envTruthy (env v) = false := by rw [he]; rfl
  have hmem : v ∈ missingVars env := by
    unfold missingVars
    rw [List.mem_filter]
    exact ⟨hv, by simp [htr]⟩
  refine ⟨hmem, ?_, ?_⟩
  · unfold missingVars
    apply List.filter_congr
    intro w _
    by_cases hwv : w = v
    · subst hwv
      simp [setUnset, envTruthy, he]
    · simp [setUnset, hwv]
  · cases hm : missingVars env with
    | nil => rw [hm] at hmem; cases hmem
    | cons a as => simp [validate_chroma_env, hm]

/-- Witness for C10: the api key set to the empty string. -/
theorem validate_env_empty_as_unset_witness :
    "CHROMA_API_KEY" ∈
      missingVars (fun w => if w = "CHROMA_API_KEY" then some "" else some "k") ∧
    missingVars (fun w => if w = "CHROMA_API_KEY" then some "" else some "k") =
      missingVars (setUnset
        (fun w => if w = "CHROMA_API_KEY" then some "" else some "k")
        "CHROMA_API_KEY") ∧
    validate_chroma_env
        (fun w => if w = "CHROMA_API_KEY" then some "" else some "k") =
      Except.error ("Missing environment variables: " ++
        String.intercalate ", "
          (missingVars
            (fun w => if w = "CHROMA_API_KEY" then some "" else some "k"))) :=
  validate_env_empty_as_unset
    (fun w => if w = "CHROMA_API_KEY" then some "" else some "k")
    "CHROMA_API_KEY" (by decide) (by decide)

/-! ### Empty extraction short-circuit -/

/-- C6: when extraction yields zero documents, the run returns normally
with an empty store trace: no credential validation, no connection and
no upsert happens, whatever the environment contains. -/
theorem mainRun_empty_extraction (f : String → List String) (env : Env)
    (results : List CrawlResult)
    (h : (extract_documents f results).1 = []) :
    mainRun f env results = Except.ok [] := by
  simp [mainRun, h]

/-- Witness for C6: an empty crawl with every credential missing still
returns success with an empty store trace. -/
theorem mainRun_empty_extraction_witness :
    (extract_documents (fun s => [s]) ([] : List CrawlResult)).1 = [] ∧
    mainRun (fun s => [s]) (fun _ => none) [] = Except.ok [] :=
  ⟨rfl, mainRun_empty_extraction (fun s => [s]) (fun _ => none) [] rfl⟩

/-! ### Deduplication lemmas -/

theorem dedupEntries_subset (seen : List String) (es : List ChunkEntry) :
    ∀ x ∈ (dedupEntries seen es).1, x ∈ es := by
  induction es generalizing seen with
  | nil =>
      intro x hx
      simp [dedupEntries] at hx
  | cons e es ih =>
      intro x hx
      by_cases h : e.id ∈ seen
      · simp only [dedupEntries, if_pos h] at hx
        exact List.mem_cons_of_mem e (ih seen x hx)
      · simp only [dedupEntries, if_neg h] at hx
        rw [List.mem_cons] at hx
        rcases hx with rfl | hx
        · exact List.mem_cons_self x es
        · exact List.mem_cons_of_mem e (ih (e.id :: seen) x hx)

theorem dedupEntries_not_seen (seen : List String) (es : List ChunkEntry) :
    ∀ x ∈ (dedupEntries seen es).1, x.id ∉ seen := by
  induction es generalizing seen with
  | nil =>
      intro x hx
      simp [dedupEntries] at hx
  | cons e es ih =>
      intro x hx
      by_cases h : e.id ∈ seen
      · simp only [dedupEntries, if_pos h] at hx
        exact ih seen x hx
      · simp only [dedupEntries, if_neg h] at hx
        rw [List.mem_cons] at hx
        rcases hx with rfl | hx
        · exact h
        · intro hc
          exact ih (e.id :: seen) x hx (List.mem_cons_of_mem _ hc)

theorem dedupEntries_ids_nodup (seen : List String) (es : List ChunkEntry) :
    ((dedupEntries seen es).1.map (fun x => x.id)).Nodup := by
  induction es generalizing seen with
  | nil => simp [dedupEntries]
  | cons e es ih =>
      by_cases h : e.id ∈ seen
      · simp only [dedupEntries, if_pos h]
        exact ih seen
      · simp only [dedupEntries, if_neg h, List.map_cons]
        refine List.nodup_cons.mpr ⟨?_, ih (e.id :: seen)⟩
        intro hc
        rw [List.mem_map] at hc
        rcases hc with ⟨x, hx, hxe⟩
        apply dedupEntries_not_seen (e.id :: seen) es x hx
        rw [hxe]
        exact List.mem_cons_self e.id seen

theorem dedupEntries_append (xs ys : List ChunkEntry) (seen : List String) :
    dedupEntries seen (xs ++ ys) =
      ((dedupEntries seen xs).1 ++
         (dedupEntries (dedupEntries seen xs).2 ys).1,
       (dedupEntries (dedupEntries seen xs).2 ys).2) := by
  induction xs generalizing seen with
  | nil => simp [dedupEntries]
  | cons e es ih =>
      by_cases h : e.id ∈ seen
      · simp only [List.cons_append, dedupEntries, if_pos h]
        exact ih seen
      · simp only [List.cons_append, dedupEntries, if_neg h]
        rw [List.append_eq, ih (e.id :: seen)]

/-! ### The extraction loop as generate-then-deduplicate -/

theorem foldl_processChunk (u t : String) (chunks : List String)
    (st : ExtractState) :
    chunks.foldl (processChunk u t) st =
      ⟨st.documents ++
         ((dedupEntries st.seen_ids (chunks.map (entryOf u t))).1.map
           (fun x => x.doc)),
       st.metadatas ++
         ((dedupEntries st.seen_ids (chunks.map (entryOf u t))).1.map
           (fun x => x.meta)),
       st.ids ++
         ((dedupEntries st.seen_ids (chunks.map (entryOf u t))).1.map
           (fun x => x.id)),
       (dedupEntries st.seen_ids (chunks.map (entryOf u t))).2⟩ := by
  induction chunks generalizing st with
  | nil => simp [dedupEntries]
  | cons c cs ih =>
      rw [List.foldl_cons]
      by_cases h : chunkIdOf u c ∈ st.seen_ids
      · have hp : processChunk u t st c = st := by
          simp [processChunk, h]
        rw [hp, ih]
        simp only [List.map_cons, dedupEntries, entryOf, if_pos h]
      · have hp : processChunk u t st c =
            ⟨st.documents ++ [docTextOf t u c], st.metadatas ++ [⟨u, t⟩],
             st.ids ++ [chunkIdOf u c], chunkIdOf u c :: st.seen_ids⟩ := by
          simp [processChunk, h]
        rw [hp, ih]
        simp only [List.map_cons, dedupEntries, entryOf, if_neg h,
          List.map_cons, List.append_assoc, List.singleton_append]

theorem processPage_eq (f : String → List String) (st : ExtractState)
    (r : CrawlResult) :
    processPage f st r =
      if pageGood r then
        (split_if_needed f r.markdown).foldl
          (processChunk r.url (pageTitle r)) st
      else st := by
  unfold processPage pageGood
  cases hs : r.success <;> cases hm : (r.markdown == "") <;> simp [hs, hm]

theorem foldl_processPage (f : String → List String)
    (results : List CrawlResult) (st : ExtractState) :
    results.foldl (processPage f) st =
      ⟨st.documents ++
         ((dedupEntries st.seen_ids (rawEntries f results)).1.map
           (fun x => x.doc)),
       st.metadatas ++
         ((dedupEntries st.seen_ids (rawEntries f results)).1.map
           (fun x => x.meta)),
       st.ids ++
         ((dedupEntries st.seen_ids (rawEntries f results)).1.map
           (fun x => x.id)),
       (dedupEntries st.seen_ids (rawEntries f results)).2⟩ := by
  induction results generalizing st with
  | nil => simp [rawEntries, dedupEntries]
  | cons r rs ih =>
      rw [List.foldl_cons, processPage_eq]
      cases hg : pageGood r with
      | false =>
          simp only [Bool.false_eq_true, if_false]
          rw [ih]
          have hraw : rawEntries f (r :: rs) = rawEntries f rs := by
            unfold rawEntries
            rw [List.filter_cons_of_neg (by simp [hg])]
          rw [hraw]
      | true =>
          simp only [if_true]
          rw [foldl_processChunk, ih]
          have hraw : rawEntries f (r :: rs) =
              pageEntries f r ++ rawEntries f rs := by
            unfold rawEntries
            rw [List.filter_cons_of_pos (by simp [hg]), List.flatMap_cons]
          rw [hraw, dedupEntries_append]
          simp only [pageEntries, List.map_append, List.append_assoc]

theorem extract_documents_eq (f : String → List String)
    (results : List CrawlResult) :
    extract_documents f results =
      ((dedupEntries [] (rawEntries f results)).1.map (fun x => x.doc),
       (dedupEntries [] (rawEntries f results)).1.map (fun x => x.meta),
       (dedupEntries [] (rawEntries f results)).1.map (fun x => x.id)) := by
  unfold extract_documents
  rw [foldl_processPage]
  simp

/-! ### C1: no duplicate ids -/

/-- C1: the ids list returned by extract_documents never contains a
duplicate: chunks with identical (url, text) pairs receive the same
deterministic id, and the seen-id set drops every repetition before the
triple is handed to the persister. -/
theorem extract_documents_ids_nodup (f : String → List String)
    (results : List CrawlResult) :
    ((extract_documents f results).2.2).Nodup := by
  rw [extract_documents_eq]
  exact dedupEntries_ids_nodup [] (rawEntries f results)

/-! ### C9: first occurrence survives -/

theorem dedupEntries_eq_keepFirst (es : List ChunkEntry)
    (seen : List String) :
    (dedupEntries seen es).1 =
      keepFirstBy (fun x => x.id)
        (es.filter (fun e => !(decide (e.id ∈ seen)))) := by
  induction es generalizing seen with
  | nil => simp [dedupEntries, keepFirstBy]
  | cons e es ih =>
      by_cases h : e.id ∈ seen
      · simp only [dedupEntries, if_pos h]
        rw [ih seen]
        have hdrop : List.filter (fun x => !(decide (x.id ∈ seen))) (e :: es) =
            List.filter (fun x => !(decide (x.id ∈ seen))) es := by
          rw [List.filter_cons_of_neg (by simp [h])]
        rw [hdrop]
      · simp only [dedupEntries, if_neg h]
        rw [ih (e.id :: seen)]
        have hkeep : List.filter (fun x => !(decide (x.id ∈ seen))) (e :: es) =
            e :: List.filter (fun x => !(decide (x.id ∈ seen))) es := by
          rw [List.filter_cons_of_pos (by simp [h])]
        rw [hkeep, keepFirstBy, List.filter_filter]
        congr 1
        exact congrArg (keepFirstBy fun x => x.id)
          (List.filter_congr (fun x _ => by
            by_cases h1 : x.id = e.id <;> by_cases h2 : x.id ∈ seen <;>
              simp [h1, h2]))

/-- C9: when several raw chunks of one run share an id, the survivor in
the output triple is the first in discovery order (page order, then
within-page split order): extraction equals the first-occurrence filter
of the undeduplicated row list. -/
theorem extract_documents_first_occurrence (f : String → List String)
    (results : List CrawlResult) :
    extract_documents f results =
      ((keepFirstBy (fun x => x.id) (rawEntries f results)).map
         (fun x => x.doc),
       (keepFirstBy (fun x => x.id) (rawEntries f results)).map
         (fun x => x.meta),
       (keepFirstBy (fun x => x.id) (rawEntries f results)).map
         (fun x => x.id)) := by
  rw [extract_documents_eq, dedupEntries_eq_keepFirst]
  simp

/-! ### C5: shape of every output row -/

theorem dedup_raw_mem (f : String → List String) (results : List CrawlResult)
    (x : ChunkEntry) (hx : x ∈ (dedupEntries [] (rawEntries f results)).1) :
    ∃ r ∈ results, ∃ c ∈ split_if_needed f r.markdown,
      x = entryOf r.url (pageTitle r) c := by
  have hraw := dedupEntries_subset _ _ x hx
  rw [rawEntries, List.mem_flatMap] at hraw
  obtain ⟨r, hr, hre⟩ := hraw
  rw [List.mem_filter] at hr
  rw [pageEntries, List.mem_map] at hre
  obtain ⟨c, hc, hce⟩ := hre
  exact ⟨r, hr.1, c, hc, hce.symm⟩

/-- C5: the three output lists have equal length, and the row at any
index i consists of an id url#digest, a document equal to the header
followed by the raw chunk, and the metadata record source/title, all
generated from one raw chunk of one input page; the raw chunk comes from
splitting the pre-header page text. -/
theorem extract_documents_row_shape (f : String → List String)
    (results : List CrawlResult) (i : Nat)
    (h : i < (extract_documents f results).2.2.length) :
    (extract_documents f results).1.length =
      (extract_documents f results).2.2.length ∧
    (extract_documents f results).2.1.length =
      (extract_documents f results).2.2.length ∧
    ∃ r ∈ results, ∃ c ∈ split_if_needed f r.markdown,
      (extract_documents f results).2.2.getD i "" =
        r.url ++ "#" ++ compute_hash c ∧
      (extract_documents f results).1.getD i "" =
        "Source: " ++ pageTitle r ++ "\n" ++ "URL: " ++ r.url ++ "\n\n" ++ c ∧
      (extract_documents f results).2.1.getD i ⟨"", ""⟩ =
        ⟨r.url, pageTitle r⟩ := by
  have h' : i < (dedupEntries [] (rawEntries f results)).1.length := by
    rw [extract_documents_eq] at h
    simpa using h
  obtain ⟨r, hrmem, c, hc, hce⟩ :=
    dedup_raw_mem f results _ (List.getElem_mem h')
  refine ⟨?_, ?_, r, hrmem, c, hc, ?_, ?_, ?_⟩
  · rw [extract_documents_eq]
    simp
  · rw [extract_documents_eq]
    simp
  · rw [extract_documents_eq]
    show ((dedupEntries [] (rawEntries f results)).1.map
      (fun x => x.id)).getD i "" = _
    rw [List.getD_eq_getElem _ _ (by simpa using h'), List.getElem_map, hce]
    rfl
  · rw [extract_documents_eq]
    show ((dedupEntries [] (rawEntries f results)).1.map
      (fun x => x.doc)).getD i "" = _
    rw [List.getD_eq_getElem _ _ (by simpa using h'), List.getElem_map, hce]
    rfl
  · rw [extract_documents_eq]
    show ((dedupEntries [] (rawEntries f results)).1.map
      (fun x => x.meta)).getD i ⟨"", ""⟩ = _
    rw [List.getD_eq_getElem _ _ (by simpa using h'), List.getElem_map, hce]
    rfl

/-- Witness for C5 on a concrete one-page input. -/
theorem extract_documents_row_shape_witness :
    0 < (extract_documents (fun s => [s])
          [⟨"https://a", true, "hi", none⟩]).2.2.length ∧
    ((extract_documents (fun s => [s])
        [⟨"https://a", true, "hi", none⟩]).1.length =
      (extract_documents (fun s => [s])
        [⟨"https://a", true, "hi", none⟩]).2.2.length ∧
    (extract_documents (fun s => [s])
        [⟨"https://a", true, "hi", none⟩]).2.1.length =
      (extract_documents (fun s => [s])
        [⟨"https://a", true, "hi", none⟩]).2.2.length ∧
    ∃ r ∈ [(⟨"https://a", true, "hi", none⟩ : CrawlResult)],
      ∃ c ∈ split_if_needed (fun s => [s]) r.markdown,
      (extract_documents (fun s => [s])
          [⟨"https://a", true, "hi", none⟩]).2.2.getD 0 "" =
        r.url ++ "#" ++ compute_hash c ∧
      (extract_documents (fun s => [s])
          [⟨"https://a", true, "hi", none⟩]).1.getD 0 "" =
        "Source: " ++ pageTitle r ++ "\n" ++ "URL: " ++ r.url ++ "\n\n" ++ c ∧
      (extract_documents (fun s => [s])
          [⟨"https://a", true, "hi", none⟩]).2.1.getD 0 ⟨"", ""⟩ =
        ⟨r.url, pageTitle r⟩) :=
  ⟨by decide,
   extract_documents_row_shape (fun s => [s])
     [⟨"https://a", true, "hi", none⟩] 0 (by decide)⟩

/-! ### C2: batch partition -/

theorem chunksOfGo_congr (n : Nat) (hn : n ≠ 0) :
    ∀ (fuel fuel' : Nat) (l : List α), l.length ≤ fuel → l.length ≤ fuel' →
      chunksOfGo n fuel l = chunksOfGo n fuel' l := by
  intro fuel
  induction fuel with
  | zero =>
      intro fuel' l h h'
      have hnil : l = [] := by
        cases l with
        | nil => rfl
        | cons x xs => simp at h
      subst hnil
      cases fuel' <;> rfl
  | succ fuel ih =>
      intro fuel' l h h'
      cases l with
      | nil => cases fuel' <;> rfl
      | cons x xs =>
          cases fuel' with
          | zero => simp at h'
          | succ fuel' =>
              simp only [chunksOfGo]
              congr 1
              apply ih
              · simp only [List.length_drop, List.length_cons]
                have : xs.length + 1 ≤ fuel + 1 := by simpa using h
                omega
              · simp only [List.length_drop, List.length_cons]
                have : xs.length + 1 ≤ fuel' + 1 := by simpa using h'
                omega

theorem chunksOf_cons (n : Nat) (hn : n ≠ 0) (l : List α) (hl : l ≠ []) :
    chunksOf n l = l.take n :: chunksOf n (l.drop n) := by
  cases l with
  | nil => exact absurd rfl hl
  | cons x xs =>
      show chunksOfGo n (x :: xs).length (x :: xs) = _
      simp only [List.length_cons, chunksOfGo, chunksOf]
      congr 1
      apply chunksOfGo_congr n hn
      · simp only [List.length_drop, List.length_cons]
        omega
      · exact Nat.le_refl _

theorem pyRangeGo_congr (stop step : Nat) (hstep : step ≠ 0) :
    ∀ (fuel fuel' start : Nat), stop - start ≤ fuel → stop - start ≤ fuel' →
      pyRangeGo stop step fuel start = pyRangeGo stop step fuel' start := by
  intro fuel
  induction fuel with
  | zero =>
      intro fuel' start h h'
      have hns : ¬ start < stop := by omega
      cases fuel' with
      | zero => rfl
      | succ fuel' => simp only [pyRangeGo, if_neg hns]
  | succ fuel ih =>
      intro fuel' start h h'
      by_cases hlt : start < stop
      · cases fuel' with
        | zero => omega
        | succ fuel' =>
            simp only [pyRangeGo, if_pos hlt]
            congr 1
            apply ih <;> omega
      · cases fuel' with
        | zero => simp only [pyRangeGo, if_neg hlt]
        | succ fuel' => simp only [pyRangeGo, if_neg hlt]

theorem pyRange_eq (start stop step : Nat) (hstep : step ≠ 0) :
    pyRange start stop step =
      if start < stop then start :: pyRange (start + step) stop step
      else [] := by
  by_cases hlt : start < stop
  · rw [if_pos hlt]
    unfold pyRange
    rw [if_neg hstep, if_neg hstep]
    obtain ⟨k, hk⟩ : ∃ k, stop - start = k + 1 := ⟨stop - start - 1, by omega⟩
    rw [hk]
    simp only [pyRangeGo, if_pos hlt]
    congr 1
    apply pyRangeGo_congr stop step hstep <;> omega
  · rw [if_neg hlt]
    unfold pyRange
    rw [if_neg hstep]
    have hz : stop - start = 0 := by omega
    rw [hz]
    rfl

theorem pyRange_shift (step k : Nat) (hstep : step ≠ 0) :
    ∀ (M start stop : Nat), stop - start ≤ M →
      pyRange (start + k) (stop + k) step =
        (pyRange start stop step).map (fun x => x + k) := by
  intro M
  induction M with
  | zero =>
      intro start stop h
      have h1 : ¬ start + k < stop + k := by omega
      have h2 : ¬ start < stop := by omega
      rw [pyRange_eq (start + k) (stop + k) step hstep, if_neg h1,
        pyRange_eq start stop step hstep, if_neg h2]
      rfl
  | succ M ih =>
      intro start stop h
      by_cases hlt : start < stop
      · rw [pyRange_eq (start + k) (stop + k) step hstep, if_pos (by omega),
          pyRange_eq start stop step hstep, if_pos hlt, List.map_cons]
        congr 1
        have hcomm : start + k + step = start + step + k := by omega
        rw [hcomm]
        exact ih (start + step) stop (by omega)
      · rw [pyRange_eq (start + k) (stop + k) step hstep, if_neg (by omega),
          pyRange_eq start stop step hstep, if_neg hlt]
        rfl

theorem pySlices_eq_chunksOf (B : Nat) (hB : B ≠ 0) :
    ∀ (M : Nat) (l : List α), l.length ≤ M →
      (pyRange 0 l.length B).map (fun i => pySlice l i B) = chunksOf B l := by
  intro M
  induction M with
  | zero =>
      intro l h
      have hnil : l = [] := by
        cases l with
        | nil => rfl
        | cons x xs => simp at h
      subst hnil
      rw [pyRange_eq _ _ _ hB, if_neg (by simp)]
      rfl
  | succ M ih =>
      intro l h
      by_cases hl : l = []
      · subst hl
        rw [pyRange_eq _ _ _ hB, if_neg (by simp)]
        rfl
      · have hpos : 0 < l.length := List.length_pos.mpr hl
        rw [pyRange_eq _ _ _ hB, if_pos hpos, List.map_cons,
          chunksOf_cons B hB l hl]
        have hhead : pySlice l 0 B = l.take B := by
          simp [pySlice]
        rw [hhead]
        congr 1
        · by_cases hlen : l.length ≤ B
          · rw [pyRange_eq _ _ _ hB, if_neg (by omega),
              List.drop_eq_nil_of_le hlen]
            rfl
          · have hshift : pyRange (0 + B) ((l.length - B) + B) B =
                (pyRange 0 (l.length - B) B).map (fun x => x + B) :=
              pyRange_shift B B hB (l.length - B) 0 (l.length - B) (by omega)
            have he1 : (0 : Nat) + B = B := by omega
            have he2 : (l.length - B) + B = l.length := by omega
            rw [he1, he2] at hshift
            rw [Nat.zero_add, hshift, List.map_map]
            have hstep1 : (pyRange 0 (l.length - B) B).map
                  ((fun i => pySlice l i B) ∘ (fun x => x + B)) =
                (pyRange 0 (l.length - B) B).map
                  (fun i => pySlice (l.drop B) i B) := by
              apply List.map_congr_left
              intro a _
              simp [pySlice, List.drop_drop, Nat.add_comm]
            rw [hstep1]
            have hld : l.length - B = (l.drop B).length := by
              simp [List.length_drop]
            rw [hld]
            apply ih
            simp only [List.length_drop]
            omega

theorem chunksOf25_length : ∀ (M : Nat) (l : List α), l.length ≤ M →
    (chunksOf 25 l).length = (l.length + 24) / 25 := by
  intro M
  induction M with
  | zero =>
      intro l h
      have hnil : l = [] := by
        cases l with
        | nil => rfl
        | cons x xs => simp at h
      subst hnil
      simp [chunksOf, chunksOfGo]
  | succ M ih =>
      intro l h
      by_cases hl : l = []
      · subst hl
        simp [chunksOf, chunksOfGo]
      · have hpos : 0 < l.length := List.length_pos.mpr hl
        rw [chunksOf_cons 25 (by omega) l hl, List.length_cons,
          ih (l.drop 25) (by simp only [List.length_drop]; omega)]
        simp only [List.length_drop]
        omega

theorem chunksOf25_flatten : ∀ (M : Nat) (l : List α), l.length ≤ M →
    (chunksOf 25 l).flatten = l := by
  intro M
  induction M with
  | zero =>
      intro l h
      have hnil : l = [] := by
        cases l with
        | nil => rfl
        | cons x xs => simp at h
      subst hnil
      rfl
  | succ M ih =>
      intro l h
      by_cases hl : l = []
      · subst hl
        rfl
      · rw [chunksOf_cons 25 (by omega) l hl, List.flatten_cons,
          ih (l.drop 25) (by simp only [List.length_drop]; omega)]
        exact List.take_append_drop 25 l

theorem chunksOf25_size_notlast : ∀ (M : Nat) (l : List α) (j : Nat),
    l.length ≤ M → j + 1 < (chunksOf 25 l).length →
    ((chunksOf 25 l).getD j []).length = 25 := by
  intro M
  induction M with
  | zero =>
      intro l j h hj
      have hnil : l = [] := by
        cases l with
        | nil => rfl
        | cons x xs => simp at h
      subst hnil
      simp [chunksOf, chunksOfGo] at hj
  | succ M ih =>
      intro l j h hj
      by_cases hl : l = []
      · subst hl
        simp [chunksOf, chunksOfGo] at hj
      · rw [chunksOf_cons 25 (by omega) l hl] at hj ⊢
        cases j with
        | zero =>
            rw [List.length_cons] at hj
            have hrest : 0 < (chunksOf 25 (l.drop 25)).length := by omega
            by_cases hd : l.drop 25 = []
            · rw [hd] at hrest
              simp [chunksOf, chunksOfGo] at hrest
            · have h25 : ¬ l.length ≤ 25 :=
                fun hle => hd (List.drop_eq_nil_of_le hle)
              rw [List.getD_cons_zero]
              simp only [List.length_take]
              omega
        | succ j =>
            rw [List.length_cons] at hj
            rw [List.getD_cons_succ]
            apply ih (l.drop 25) j
            · simp only [List.length_drop]
              omega
            · omega

theorem chunksOf25_last : ∀ (M : Nat) (l : List α), l.length ≤ M → l ≠ [] →
    ((chunksOf 25 l).getD ((chunksOf 25 l).length - 1) []).length =
      if l.length % 25 = 0 then 25 else l.length % 25 := by
  intro M
  induction M with
  | zero =>
      intro l h hl
      cases l with
      | nil => exact absurd rfl hl
      | cons x xs => simp at h
  | succ M ih =>
      intro l h hl
      have hpos : 0 < l.length := List.length_pos.mpr hl
      rw [chunksOf_cons 25 (by omega) l hl]
      by_cases hd : l.drop 25 = []
      · have hle : l.length ≤ 25 := by
          rw [List.drop_eq_nil_iff] at hd
          exact hd
        have hnil : chunksOf 25 (l.drop 25) = [] := by
          rw [hd]
          rfl
        rw [hnil]
        simp [List.length_take]
        by_cases hm : l.length % 25 = 0
        · rw [if_pos hm]
          omega
        · rw [if_neg hm]
          omega
      · have h25 : ¬ l.length ≤ 25 :=
          fun hle => hd (List.drop_eq_nil_of_le hle)
        have hrest := ih (l.drop 25)
          (by simp only [List.length_drop]; omega) hd
        have hrl : 0 < (chunksOf 25 (l.drop 25)).length := by
          by_contra h0
          have hz : chunksOf 25 (l.drop 25) = [] :=
            List.eq_nil_of_length_eq_zero (by omega)
          rw [chunksOf_cons 25 (by omega) _ hd] at hz
          simp at hz
        rw [List.length_cons]
        have hidx : (chunksOf 25 (l.drop 25)).length + 1 - 1 =
            ((chunksOf 25 (l.drop 25)).length - 1) + 1 := by omega
        rw [hidx, List.getD_cons_succ, hrest]
        simp only [List.length_drop]
        have hmod : (l.length - 25) % 25 = l.length % 25 := by omega
        rw [hmod]

/-- C2: with N documents and batch size 25, the upsert loop issues
exactly ceil(N/25) upsert calls on the collection (after the single
connect and collection lookup), the j-th carrying the j-th consecutive
slice; every batch has 25 chunks except possibly the last, which has
N mod 25 of them when that is non-zero (25 otherwise), and the
concatenation of the ids over all batches is the input ids list in
order. -/
theorem upsert_batch_partition (env : Env) (documents : List String)
    (metadatas : List ChunkMeta) (ids : List String)
    (hne : documents ≠ []) (hlen : ids.length = documents.length)
    (hok : missingVars env = []) :
    (upsertBatches documents metadatas ids).length =
      (documents.length + (UPSERT_BATCH_SIZE - 1)) / UPSERT_BATCH_SIZE ∧
    (∀ j, j + 1 < (upsertBatches documents metadatas ids).length →
      (((upsertBatches documents metadatas ids).map
        (fun b => b.2.2)).getD j []).length = UPSERT_BATCH_SIZE) ∧
    (((upsertBatches documents metadatas ids).map (fun b => b.2.2)).getD
        ((upsertBatches documents metadatas ids).length - 1) []).length =
      (if documents.length % UPSERT_BATCH_SIZE = 0 then UPSERT_BATCH_SIZE
       else documents.length % UPSERT_BATCH_SIZE) ∧
    ((upsertBatches documents metadatas ids).map
      (fun b => b.2.2)).flatten = ids ∧
    upsert_to_chroma env documents metadatas ids =
      Except.ok (StoreCall.connect (env "CHROMA_API_KEY")
          (env "CHROMA_TENANT") (env "CHROMA_DATABASE") ::
        StoreCall.getOrCreateCollection COLLECTION_NAME ::
        (upsertBatches documents metadatas ids).map
          (fun b => StoreCall.upsert b.1 b.2.1 b.2.2)) := by
  have hB : UPSERT_BATCH_SIZE ≠ 0 := by decide
  have hids : ids ≠ [] := by
    intro h0
    apply hne
    apply List.eq_nil_of_length_eq_zero
    rw [← hlen, h0]
    rfl
  have hmap : (upsertBatches documents metadatas ids).map (fun b => b.2.2) =
      (pyRange 0 documents.length UPSERT_BATCH_SIZE).map
        (fun i => pySlice ids i UPSERT_BATCH_SIZE) := by
    unfold upsertBatches
    rw [List.map_map]
    rfl
  have hchunks : (upsertBatches documents metadatas ids).map
      (fun b => b.2.2) = chunksOf UPSERT_BATCH_SIZE ids := by
    rw [hmap, ← hlen]
    exact pySlices_eq_chunksOf UPSERT_BATCH_SIZE hB ids.length ids
      (Nat.le_refl _)
  have hblen : (upsertBatches documents metadatas ids).length =
      (chunksOf UPSERT_BATCH_SIZE ids).length := by
    rw [← hchunks, List.length_map]
  refine ⟨?_, ?_, ?_, ?_, ?_⟩
  · rw [hblen]
    show (chunksOf 25 ids).length = (documents.length + (25 - 1)) / 25
    rw [chunksOf25_length ids.length ids (Nat.le_refl _), hlen]
  · intro j hj
    rw [hblen] at hj
    rw [hchunks]
    exact chunksOf25_size_notlast ids.length ids j (Nat.le_refl _) hj
  · rw [hchunks, hblen]
    have hlast := chunksOf25_last ids.length ids (Nat.le_refl _) hids
    rw [hlen] at hlast
    exact hlast
  · rw [hchunks]
    exact chunksOf25_flatten ids.length ids (Nat.le_refl _)
  · simp [upsert_to_chroma, validate_chroma_env, hok]

/-- Witness for C2: three documents, one batch. -/
theorem upsert_batch_partition_witness :
    (upsertBatches ["a", "b", "c"]
        [⟨"u", "t"⟩, ⟨"u", "t"⟩, ⟨"u", "t"⟩] ["x", "y", "z"]).length =
      ((["a", "b", "c"] : List String).length + (UPSERT_BATCH_SIZE - 1)) /
        UPSERT_BATCH_SIZE ∧
    (∀ j, j + 1 < (upsertBatches ["a", "b", "c"]
        [⟨"u", "t"⟩, ⟨"u", "t"⟩, ⟨"u", "t"⟩] ["x", "y", "z"]).length →
      (((upsertBatches ["a", "b", "c"]
          [⟨"u", "t"⟩, ⟨"u", "t"⟩, ⟨"u", "t"⟩] ["x", "y", "z"]).map
        (fun b => b.2.2)).getD j []).length = UPSERT_BATCH_SIZE) ∧
    (((upsertBatches ["a", "b", "c"]
        [⟨"u", "t"⟩, ⟨"u", "t"⟩, ⟨"u", "t"⟩] ["x", "y", "z"]).map
          (fun b => b.2.2)).getD
        ((upsertBatches ["a", "b", "c"]
          [⟨"u", "t"⟩, ⟨"u", "t"⟩, ⟨"u", "t"⟩] ["x", "y", "z"]).length - 1)
        []).length =
      (if (["a", "b", "c"] : List String).length % UPSERT_BATCH_SIZE = 0
       then UPSERT_BATCH_SIZE
       else (["a", "b", "c"] : List String).length % UPSERT_BATCH_SIZE) ∧
    ((upsertBatches ["a", "b", "c"]
        [⟨"u", "t"⟩, ⟨"u", "t"⟩, ⟨"u", "t"⟩] ["x", "y", "z"]).map
      (fun b => b.2.2)).flatten = ["x", "y", "z"] ∧
    upsert_to_chroma (fun _ => some "v") ["a", "b", "c"]
        [⟨"u", "t"⟩, ⟨"u", "t"⟩, ⟨"u", "t"⟩] ["x", "y", "z"] =
      Except.ok (StoreCall.connect (some "v") (some "v") (some "v") ::
        StoreCall.getOrCreateCollection COLLECTION_NAME ::
        (upsertBatches ["a", "b", "c"]
            [⟨"u", "t"⟩, ⟨"u", "t"⟩, ⟨"u", "t"⟩] ["x", "y", "z"]).map
          (fun b => StoreCall.upsert b.1 b.2.1 b.2.2)) :=
  upsert_batch_partition (fun _ => some "v") ["a", "b", "c"]
    [⟨"u", "t"⟩, ⟨"u", "t"⟩, ⟨"u", "t"⟩] ["x", "y", "z"]
    (by decide) (by decide) (by decide)
